import Mathlib

/-!
# wunderchat: the broadcast relay of `src/main.cpp`

A shallow embedding of `struct Client` and `struct Server`.

* Descriptors and return codes are `int`; no arithmetic is done on them, so they
  are `Int`.
* `std::chrono::high_resolution_clock::time_point` is the tick count since the
  clock's epoch.  Both libstdc++ and libc++ use nanosecond ticks, so a time
  point is an `Int` number of nanoseconds and `std::chrono::seconds(1)` is
  `10^9`.  The subtraction `now - client.last` is taken in `Int`: `last` is
  either the epoch or an earlier reading of the same clock, far from the
  64-bit range.
* The operating system is an oracle: every value a system call returns is a
  field of `Env` (for one call of `work`) or `OpenEnv` (for `open`).  Every
  system call that acts on a descriptor (`write`, `epoll_ctl`, `close`) is
  recorded, in program order, in a trace of `Sys` values.  `printf` is not
  recorded.
* `std::unordered_map<int, Client>` is the list of its entries in iteration
  order.  Keys of a map are unique, so the address test
  `&i->second != &client` is the test on keys, and `erase(iterator)` removes
  the entry at the iterator's position, keeps the order of the others and
  returns the iterator at the same position.
-/

namespace Wunderchat

/-- One byte of a message. -/
abbrev Byte := Fin 256

/-- Value of `errno.h` constant `EINVAL` on Linux. -/
def EINVAL : Int := 22

/-- Value of `errno.h` constant `EFAULT` on Linux. -/
def EFAULT : Int := 14

/-- Ticks of `std::chrono::seconds(1)` in the clock's (nanosecond) duration. -/
def second : Int := 1000000000

/-- System calls that act on a descriptor, as issued by the program. -/
inductive Sys where
  | write (fd : Int) (bytes : List Byte)
  | epollAdd (epfd : Int) (fd : Int)
  | epollDel (epfd : Int) (fd : Int)
  | close (fd : Int)
  deriving DecidableEq

/-- Whether a recorded call is a `write`. -/
def Sys.isWrite : Sys → Bool
  | Sys.write _ _ => true
  | _ => false

/-- Members of `struct Client`, with their default member initialisers. -/
structure Client where
  clientfd : Int := 0
  epollfd : Int := 0
  last : Int := 0
  deriving DecidableEq

/-- Move constructor `Client(Client&& o)`: the new object starts from the default
member initialisers and swaps each member with `o`.  Returns the new object
and what is left in `o`. -/
def Client.moveCtor (o : Client) : Client × Client :=
  let n : Client := {}
  -- std::swap(clientfd, o.clientfd)
  let n1 : Client := { n with clientfd := o.clientfd }
  let o1 : Client := { o with clientfd := n.clientfd }
  -- std::swap(epollfd, o.epollfd)
  let n2 : Client := { n1 with epollfd := o1.epollfd }
  let o2 : Client := { o1 with epollfd := n1.epollfd }
  -- std::swap(last, o.last)
  let n3 : Client := { n2 with last := o2.last }
  let o3 : Client := { o2 with last := n2.last }
  (n3, o3)

/-- Destructor `~Client()`: the system calls it issues. -/
def Client.destroy (c : Client) : List Sys :=
  (if c.epollfd ≠ 0 then [Sys.epollDel c.epollfd c.clientfd] else []) ++
  (if c.clientfd ≠ 0 then [Sys.close c.clientfd] else [])

/-- Method `int Client::write(const char* msg, ssize_t len)`; `r` is what
`::write(clientfd, msg, len)` returned.  Gives the return code and the call
issued, which carries the first `len` bytes at `msg`. -/
def Client.write (c : Client) (msg : List Byte) (len : Int) (r : Int) : Int × List Sys :=
  let call := [Sys.write c.clientfd (msg.take len.toNat)]
  if r < 0 then (EINVAL, call)
  else if r ≠ len then (EINVAL, call)
  else (0, call)

/-- Bytes of a string literal, without the terminating NUL. -/
def lit (s : String) : List Byte := s.toList.map (fun ch => Fin.ofNat ch.toNat)

/-- Template `int Client::write(const char (&msg)[N])`: the array is the literal
followed by its terminating NUL, `N` is its size, and `N - 1` bytes are
written. -/
def Client.writeLit (c : Client) (s : String) (r : Int) : Int × List Sys :=
  let msg : List Byte := lit s ++ [0]
  c.write msg ((msg.length : Int) - 1) r

/-- Value of a byte read as a plain `char`; whether plain `char` is signed is
implementation-defined. -/
def toChar (signedChar : Bool) (b : Byte) : Int :=
  if signedChar && decide (128 ≤ b.val) then (b.val : Int) - 256 else (b.val : Int)

/-- Loop body test of `Server::valid`:
`0 <= s[i] && s[i] < 0x20 && s[i] != '\n' && s[i] != '\r'`. -/
def forbidden (ch : Int) : Bool :=
  decide (0 ≤ ch) && decide (ch < 0x20) && decide (ch ≠ 10) && decide (ch ≠ 13)

/-- Loop of `Server::valid` from index `i`, with `n` iterations left
(`n = len - i`). -/
def validFrom (signedChar : Bool) (s : List Byte) : Nat → Nat → Bool
  | 0, _ => true
  | n + 1, i =>
    if forbidden (toChar signedChar (s.getD i 0)) then false
    else validFrom signedChar s n (i + 1)

/-- Method `bool Server::valid(const char* s, size_t len) const`. -/
def valid (signedChar : Bool) (s : List Byte) (len : Nat) : Bool :=
  validFrom signedChar s len 0

/-- Type `enum action {drop, keep}`. -/
inductive Action where
  | drop
  | keep
  deriving DecidableEq

/-- Container `std::unordered_map<int, Client>`: its entries in iteration order. -/
abbrev Registry := List (Int × Client)

/-- Members of `struct Server`. -/
structure Server where
  serverfd : Int := 0
  epollfd : Int := 0
  clients : Registry := []

/-- Call `clients.find(fd)`: the mapped value, `none` for `clients.end()`. -/
def find (fd : Int) : Registry → Option Client
  | [] => none
  | (k, c) :: rest => if k = fd then some c else find fd rest

/-- Call `clients.erase(it)` for the iterator that `find` gave for `fd`: the
entry is removed and its `Client` destroyed. -/
def eraseKey (fd : Int) : Registry → Registry × List Sys
  | [] => ([], [])
  | (k, c) :: rest =>
    if k = fd then (rest, c.destroy)
    else ((k, c) :: (eraseKey fd rest).1, (eraseKey fd rest).2)

/-- Assignment `client.last = now` through the reference to the entry of key
`fd`. -/
def setLast (fd : Int) (now : Int) : Registry → Registry
  | [] => []
  | (k, c) :: rest =>
    if k = fd then (k, { c with last := now }) :: rest
    else (k, c) :: setLast fd now rest

/-- What the operating system answers during one call of `Server::work`. -/
structure Env where
  /-- whether plain `char` is signed on the platform -/
  signedChar : Bool
  /-- return value of `epoll_wait` -/
  wait : Int
  /-- the `event.data.fd` that `epoll_wait` stored -/
  fd : Int
  /-- return value of `::accept` -/
  acceptRes : Int
  /-- return value of `epoll_ctl(epollfd, EPOLL_CTL_ADD, ...)` -/
  ctlAdd : Int
  /-- result of `read`: `none` for an error (negative return), else the bytes
  stored in `buf`, whose number is the return value -/
  rd : Option (List Byte)
  /-- reading of `high_resolution_clock::now()` -/
  now : Int
  /-- return value of `::write` on each descriptor -/
  wr : Int → Int

/-- Result of a method of `Server`: return code, state afterwards, calls issued. -/
structure Res where
  ret : Int
  server : Server
  trace : List Sys

/-- Result of `Server::process`. -/
structure PRes where
  action : Action
  server : Server
  trace : List Sys

/-- The broadcast loop of `Server::process`,
`for (auto i = clients.begin(); i != clients.end(); )`.  The iterator is the
position `i` in the entry list `cl`; `tr` is the trace so far.  The first
argument bounds the number of iterations still allowed; `process` passes the
number of entries, which is the number of iterations the loop makes. -/
def broadcastLoop (sender : Int) (buf : List Byte) (len : Int) (wr : Int → Int) :
    Nat → Nat → Registry → List Sys → Registry × List Sys
  | 0, _, cl, tr => (cl, tr)
  | fuel + 1, i, cl, tr =>
    match cl.get? i with
    | none => (cl, tr)
    | some (k, c) =>
      if k ≠ sender then
        let w := c.write buf len (wr c.clientfd)
        if w.1 ≠ 0 then
          -- i = clients.erase(i); continue;
          broadcastLoop sender buf len wr fuel i (cl.eraseIdx i) (tr ++ w.2 ++ c.destroy)
        else
          broadcastLoop sender buf len wr fuel (i + 1) cl (tr ++ w.2)
      else
        broadcastLoop sender buf len wr fuel (i + 1) cl tr

/-- Method `Server::process(Client& client)`, where `client` is the entry of key
`key` and `c` its value when the method is entered. -/
def process (s : Server) (key : Int) (c : Client) (env : Env) : PRes :=
  match env.rd with
  | none => ⟨Action.drop, s, []⟩
  | some buf =>
    let len : Int := buf.length
    if len = 0 then ⟨Action.drop, s, []⟩
    else if len = 181 then
      ⟨Action.drop, s, (c.writeLit "message overflow\n" (env.wr c.clientfd)).2⟩
    else if !valid env.signedChar buf len.toNat then
      ⟨Action.keep, s, (c.writeLit "forbidden symbols\n" (env.wr c.clientfd)).2⟩
    else if env.now - c.last < second then
      ⟨Action.keep, s, (c.writeLit "flood is detected\n" (env.wr c.clientfd)).2⟩
    else
      let cl := setLast key env.now s.clients
      let out := broadcastLoop key buf len env.wr cl.length 0 cl []
      ⟨Action.keep, { s with clients := out.1 }, out.2⟩

/-- Call `clients.emplace(client.clientfd, std::move(client))`.  The node's pair
is built first: its key is read from `client.clientfd`, then its value is
move-constructed from `client`.  When the key is already present the node is
destroyed again and the map is unchanged.  Returns the map, what is left in
`client`, and the calls issued. -/
def emplace (client : Client) (cl : Registry) : Registry × Client × List Sys :=
  let key := client.clientfd
  let mv := client.moveCtor
  match find key cl with
  | some _ => (cl, mv.2, mv.1.destroy)
  | none => ((key, mv.1) :: cl, mv.2, [])

/-- Method `Server::accept()`. -/
def Server.accept (s : Server) (env : Env) : Res :=
  let client : Client := {}
  let client : Client := { client with clientfd := env.acceptRes }
  if client.clientfd = 0 then ⟨EINVAL, s, client.destroy⟩
  else
    let call := [Sys.epollAdd s.epollfd client.clientfd]
    if env.ctlAdd ≠ 0 then ⟨EINVAL, s, call ++ client.destroy⟩
    else
      let client : Client := { client with epollfd := s.epollfd }
      let e := emplace client s.clients
      ⟨0, { s with clients := e.1 }, call ++ e.2.2 ++ e.2.1.destroy⟩

/-- Method `Server::work()`. -/
def Server.work (s : Server) (env : Env) : Res :=
  if env.wait < 0 then ⟨EINVAL, s, []⟩
  else if env.wait = 0 then ⟨0, s, []⟩
  else if env.fd = s.serverfd then s.accept env
  else
    match find env.fd s.clients with
    | none => ⟨EFAULT, s, []⟩
    | some c =>
      let p := process s env.fd c env
      if p.action = Action.drop then
        let e := eraseKey env.fd p.server.clients
        ⟨0, { p.server with clients := e.1 }, p.trace ++ e.2⟩
      else ⟨0, p.server, p.trace⟩

/-- What the operating system answers during `Server::open`. -/
structure OpenEnv where
  socketRes : Int
  setsockoptRes : Int
  inetPtonRes : Int
  bindRes : Int
  listenRes : Int
  epollCreateRes : Int
  ctlAdd : Int

/-- Method `Server::open(hostname, port)`: return code and state afterwards. -/
def Server.openSrv (s : Server) (oe : OpenEnv) : Int × Server :=
  let s1 : Server := { s with serverfd := oe.socketRes }
  if s1.serverfd = 0 then (EINVAL, s1)
  else if oe.setsockoptRes ≠ 0 then (EINVAL, s1)
  else if oe.inetPtonRes ≠ 1 then (EINVAL, s1)
  else if oe.bindRes ≠ 0 then (EINVAL, s1)
  else if oe.listenRes ≠ 0 then (EINVAL, s1)
  else
    let s2 : Server := { s1 with epollfd := oe.epollCreateRes }
    if s2.epollfd = 0 then (EINVAL, s2)
    else if oe.ctlAdd ≠ 0 then (EINVAL, s2)
    else (0, s2)

/-- The loop of `main`, `while (true) if (int r = server.work()) return ..., EINVAL;`
run on the answers the operating system gives to successive calls of `work`:
`some EINVAL` when `main` returns, `none` when the loop is still running
after the last of them. -/
def mainLoop (s : Server) : List Env → Option Int
  | [] => none
  | env :: rest =>
    if (s.work env).ret ≠ 0 then some EINVAL
    else mainLoop (s.work env).server rest

/-- States of the `Server` object of `main`: after a successful `open`, then after
any number of calls of `work`. -/
inductive Reachable : Server → Prop
  | opened (oe : OpenEnv) : (Server.openSrv {} oe).1 = 0 → Reachable (Server.openSrv {} oe).2
  | worked (s : Server) (env : Env) : Reachable s → Reachable (s.work env).server

/-- A write that `Client::write` reports as failed (`r < 0` or `r != len`): an
error or a short write. -/
def writeFails (r len : Int) : Bool := decide (r < 0) || decide (r ≠ len)

/-- Follows the spec's words for the broadcast: the registry minus the
Connections other than the sender whose write failed. -/
def survivors (sender : Int) (len : Int) (wr : Int → Int) (cl : Registry) : Registry :=
  cl.filter (fun kc => decide (kc.1 = sender) || !writeFails (wr kc.2.clientfd) len)

/-- Follows the spec's words for the broadcast: nothing for the sender; for any
other Connection one write of the payload, and its destruction right after
when that write failed. -/
def peerCalls (sender : Int) (p : List Byte) (len : Int) (wr : Int → Int)
    (kc : Int × Client) : List Sys :=
  if kc.1 = sender then []
  else Sys.write kc.2.clientfd p ::
    (if writeFails (wr kc.2.clientfd) len then kc.2.destroy else [])

/-- Follows the spec's words for the broadcast: the calls of a scan that visits
every entry once, in iteration order. -/
def broadcastCalls (sender : Int) (p : List Byte) (len : Int) (wr : Int → Int) :
    Registry → List Sys
  | [] => []
  | kc :: rest => peerCalls sender p len wr kc ++ broadcastCalls sender p len wr rest

/-- Invariant of a registry under readiness handle `e`: keys are unique and
non-zero, and each Connection is stored under its own descriptor and carries
the Broker's readiness handle. -/
def RegOK (e : Int) (cl : Registry) : Prop :=
  (cl.map Prod.fst).Nodup ∧
  ∀ kc ∈ cl, kc.2.clientfd = kc.1 ∧ kc.2.epollfd = e ∧ kc.1 ≠ 0

/-- Invariant of the states of the Broker. -/
def BrokerInv (s : Server) : Prop :=
  s.epollfd ≠ 0 ∧ s.serverfd ≠ 0 ∧ RegOK s.epollfd s.clients

/-- Example answers to `open`: listening socket 3, readiness handle 4. -/
def oe0 : OpenEnv :=
  { socketRes := 3, setsockoptRes := 0, inetPtonRes := 1, bindRes := 0, listenRes := 0,
    epollCreateRes := 4, ctlAdd := 0 }

/-- Example answers to `work`: the listening socket is ready and `accept` gives
`fd`. -/
def envAccept (fd : Int) : Env :=
  { signedChar := true, wait := 1, fd := 3, acceptRes := fd, ctlAdd := 0, rd := none,
    now := 0, wr := fun _ => 0 }

/-- Example answers to `work`: descriptor `fd` is ready, `read` gives `rd` at
clock reading `now`, and every write succeeds except the one on `bad`. -/
def envRead (fd : Int) (rd : Option (List Byte)) (now : Int) (bad : Int) : Env :=
  { signedChar := true, wait := 1, fd := fd, acceptRes := 0, ctlAdd := 0, rd := rd,
    now := now,
    wr := fun d => if d = bad then -1 else
      match rd with
      | some p => p.length
      | none => 0 }

/-- Example state: opened, no Connection. -/
def srv0 : Server := (Server.openSrv {} oe0).2

/-- Example state: Connections 5, 6 and 7 accepted in that order. -/
def srv3 : Server :=
  (((srv0.work (envAccept 5)).server.work (envAccept 6)).server.work (envAccept 7)).server

/-- Example payload `hi\n`. -/
def hi : List Byte := [104, 105, 10]

/-- Example payload with the forbidden byte 0x07. -/
def bell : List Byte := [104, 7, 10]

/-- Example answers to `work`: the listening socket is ready, `accept` fails
with -1 and the registration of descriptor -1 fails, as it does for an invalid
descriptor. -/
def envAcceptFail : Env := { envAccept (-1) with ctlAdd := -1 }

/-! ## Connection: the write primitive and the notices -/

theorem write_ret (c : Client) (msg : List Byte) (len r : Int) :
    ((c.write msg len r).1 ≠ 0) ↔ writeFails r len = true := by
  unfold Client.write writeFails EINVAL
  split_ifs <;> simp_all

theorem write_calls (c : Client) (msg : List Byte) (len r : Int) :
    (c.write msg len r).2 = [Sys.write c.clientfd (msg.take len.toNat)] := by
  unfold Client.write
  split_ifs <;> rfl

theorem writeLit_calls (c : Client) (s : String) (r : Int) :
    (c.writeLit s r).2 = [Sys.write c.clientfd (lit s)] := by
  unfold Client.writeLit
  rw [write_calls]
  have hn : (((lit s ++ [(0 : Byte)]).length : Int) - 1).toNat = (lit s).length := by simp
  rw [hn]
  simp

theorem destroy_no_write (c : Client) : c.destroy.filter Sys.isWrite = [] := by
  unfold Client.destroy
  split_ifs <;> simp [Sys.isWrite]

/-! ## Validation -/

theorem forbidden_toChar (sc : Bool) (b : Byte) :
    forbidden (toChar sc b) = true ↔ (b.val < 0x20 ∧ b.val ≠ 10 ∧ b.val ≠ 13) := by
  unfold forbidden toChar
  have hb := b.isLt
  cases sc <;> simp
  · omega
  · split_ifs <;> omega

theorem validFrom_iff (sc : Bool) (s : List Byte) (n : Nat) : ∀ i : Nat,
    validFrom sc s n i = true ↔
      ∀ j, i ≤ j → j < i + n → forbidden (toChar sc (s.getD j 0)) = false := by
  induction n with
  | zero =>
    intro i
    simp only [validFrom, true_iff]
    intro j h1 h2
    omega
  | succ n ih =>
    intro i
    rw [validFrom]
    by_cases hf : forbidden (toChar sc (s.getD i 0)) = true
    · simp only [hf, if_true]
      constructor
      · intro h
        cases h
      · intro h
        have := h i (le_refl _) (by omega)
        rw [hf] at this
        cases this
    · have hf2 : forbidden (toChar sc (s.getD i 0)) = false := by
        cases h : forbidden (toChar sc (s.getD i 0))
        · rfl
        · exact absurd h hf
      rw [hf2]
      simp only [Bool.false_eq_true, if_false]
      rw [ih (i + 1)]
      constructor
      · intro h j h1 h2
        by_cases hj : j = i
        · subst hj
          exact hf2
        · exact h j (by omega) (by omega)
      · intro h j h1 h2
        exact h j (by omega) (by omega)

theorem valid_iff (sc : Bool) (s : List Byte) :
    valid sc s s.length = true ↔
      ∀ b ∈ s, ¬ (b.val < 0x20 ∧ b.val ≠ 10 ∧ b.val ≠ 13) := by
  unfold valid
  rw [validFrom_iff]
  constructor
  · intro h b hb
    obtain ⟨j, hj, rfl⟩ := List.mem_iff_getElem.1 hb
    have := h j (Nat.zero_le _) (by omega)
    rw [List.getD_eq_getElem _ _ hj] at this
    intro hbad
    rw [(forbidden_toChar sc _).2 hbad] at this
    cases this
  · intro h j _ hj
    have hj2 : j < s.length := by omega
    rw [List.getD_eq_getElem _ _ hj2]
    have := h s[j] (List.getElem_mem hj2)
    cases hf : forbidden (toChar sc s[j])
    · rfl
    · exact absurd ((forbidden_toChar sc _).1 hf) this

/-! ## The broadcast loop -/

theorem broadcastLoop_spec (sender : Int) (buf : List Byte) (len : Int) (wr : Int → Int)
    (suf : Registry) : ∀ (fuel : Nat) (pre : Registry) (tr : List Sys), suf.length ≤ fuel →
    broadcastLoop sender buf len wr fuel pre.length (pre ++ suf) tr =
      (pre ++ survivors sender len wr suf,
       tr ++ broadcastCalls sender (buf.take len.toNat) len wr suf) := by
  induction suf with
  | nil =>
    intro fuel pre tr _
    cases fuel with
    | zero => simp [broadcastLoop, survivors, broadcastCalls]
    | succ n => simp [broadcastLoop, survivors, broadcastCalls]
  | cons x suf ih =>
    intro fuel pre tr hf
    cases fuel with
    | zero => simp at hf
    | succ n =>
      obtain ⟨k, c⟩ := x
      have hn : suf.length ≤ n := by simpa using hf
      have hget : (pre ++ (k, c) :: suf).get? pre.length = some (k, c) := by
        rw [List.get?_eq_getElem?, List.getElem?_append_right (le_refl _)]
        simp
      have herase : (pre ++ (k, c) :: suf).eraseIdx pre.length = pre ++ suf := by
        simp [List.eraseIdx_append_of_length_le]
      have hadv : pre ++ (k, c) :: suf = (pre ++ [(k, c)]) ++ suf := by simp
      have hlen : pre.length + 1 = (pre ++ [(k, c)]).length := by simp
      have ih1 := ih n (pre ++ [(k, c)])
      have ih2 := ih n pre
      rw [broadcastLoop, hget]
      by_cases hk : k = sender
      · simp only [hk, ne_eq, not_true_eq_false, if_false]
        rw [hk] at hadv hlen ih1
        rw [hadv, hlen, ih1 tr hn]
        simp [survivors, broadcastCalls, peerCalls]
      · simp only [ne_eq, hk, not_false_eq_true, if_true]
        by_cases hw : writeFails (wr c.clientfd) len = true
        · have h1 : (c.write buf len (wr c.clientfd)).1 ≠ 0 := (write_ret c buf len _).2 hw
          simp only [ne_eq, h1, not_false_eq_true, if_true]
          rw [herase, ih2 _ hn, write_calls]
          simp [survivors, broadcastCalls, peerCalls, hk, hw]
        · have h1 : ¬ (c.write buf len (wr c.clientfd)).1 ≠ 0 :=
            fun h => hw ((write_ret c buf len _).1 h)
          simp only [h1, if_false]
          rw [hadv, hlen, ih1 _ hn, write_calls]
          simp [survivors, broadcastCalls, peerCalls, hk, hw]

theorem broadcastLoop_full (sender : Int) (buf : List Byte) (len : Int) (wr : Int → Int)
    (cl : Registry) :
    broadcastLoop sender buf len wr cl.length 0 cl [] =
      (survivors sender len wr cl, broadcastCalls sender (buf.take len.toNat) len wr cl) := by
  have h := broadcastLoop_spec sender buf len wr cl cl.length [] [] (le_refl _)
  simpa using h

/-! ## The branches of `process` -/

theorem process_read_error (s : Server) (key : Int) (c : Client) (env : Env)
    (hrd : env.rd = none) : process s key c env = ⟨Action.drop, s, []⟩ := by
  unfold process
  rw [hrd]

theorem process_eof (s : Server) (key : Int) (c : Client) (env : Env)
    (hrd : env.rd = some []) : process s key c env = ⟨Action.drop, s, []⟩ := by
  unfold process
  rw [hrd]
  simp

theorem process_overflow (s : Server) (key : Int) (c : Client) (env : Env) (P : List Byte)
    (hrd : env.rd = some P) (hlen : P.length = 181) :
    process s key c env =
      ⟨Action.drop, s, [Sys.write c.clientfd (lit "message overflow\n")]⟩ := by
  unfold process
  rw [hrd]
  simp [hlen, writeLit_calls]

theorem process_forbidden (s : Server) (key : Int) (c : Client) (env : Env) (P : List Byte)
    (hrd : env.rd = some P) (h1 : 1 ≤ P.length) (h2 : P.length ≤ 180)
    (hbad : ∃ b ∈ P, b.val < 0x20 ∧ b.val ≠ 10 ∧ b.val ≠ 13) :
    process s key c env =
      ⟨Action.keep, s, [Sys.write c.clientfd (lit "forbidden symbols\n")]⟩ := by
  have hv : valid env.signedChar P P.length = false := by
    cases hval : valid env.signedChar P P.length
    · rfl
    · obtain ⟨b, hb, hbb⟩ := hbad
      exact absurd hbb ((valid_iff _ _).1 hval b hb)
  have e0 : ¬ ((P.length : Int) = 0) := by omega
  have e1 : ¬ ((P.length : Int) = 181) := by omega
  unfold process
  rw [hrd]
  simp [e0, e1, hv, writeLit_calls]

theorem process_flood (s : Server) (key : Int) (c : Client) (env : Env) (P : List Byte)
    (hrd : env.rd = some P) (h1 : 1 ≤ P.length) (h2 : P.length ≤ 180)
    (hok : ∀ b ∈ P, ¬ (b.val < 0x20 ∧ b.val ≠ 10 ∧ b.val ≠ 13))
    (ht : env.now - c.last < second) :
    process s key c env =
      ⟨Action.keep, s, [Sys.write c.clientfd (lit "flood is detected\n")]⟩ := by
  have hv : valid env.signedChar P P.length = true := (valid_iff _ _).2 hok
  have e0 : ¬ ((P.length : Int) = 0) := by omega
  have e1 : ¬ ((P.length : Int) = 181) := by omega
  unfold process
  rw [hrd]
  simp [e0, e1, hv, ht, writeLit_calls]

theorem process_broadcast (s : Server) (key : Int) (c : Client) (env : Env) (P : List Byte)
    (hrd : env.rd = some P) (h1 : 1 ≤ P.length) (h2 : P.length ≤ 180)
    (hok : ∀ b ∈ P, ¬ (b.val < 0x20 ∧ b.val ≠ 10 ∧ b.val ≠ 13))
    (ht : second ≤ env.now - c.last) :
    process s key c env =
      ⟨Action.keep,
       { s with clients := survivors key P.length env.wr (setLast key env.now s.clients) },
       broadcastCalls key P P.length env.wr (setLast key env.now s.clients)⟩ := by
  have hv : valid env.signedChar P P.length = true := (valid_iff _ _).2 hok
  have e0 : ¬ ((P.length : Int) = 0) := by omega
  have e1 : ¬ ((P.length : Int) = 181) := by omega
  have e2 : ¬ (env.now - c.last < second) := by omega
  unfold process
  rw [hrd]
  simp [e0, e1, hv, e2, broadcastLoop_full]

/-! ## The registry -/

theorem find_mem (k : Int) (c : Client) : ∀ cl : Registry, find k cl = some c → (k, c) ∈ cl := by
  intro cl
  induction cl with
  | nil => intro h; simp [find] at h
  | cons x rest ih =>
    obtain ⟨k1, c1⟩ := x
    intro h
    rw [find] at h
    by_cases hk : k1 = k
    · simp only [hk, if_true, Option.some.injEq] at h
      simp [hk, h]
    · simp only [hk, if_false] at h
      exact List.mem_cons_of_mem _ (ih h)

theorem find_none_iff (k : Int) : ∀ cl : Registry,
    find k cl = none ↔ k ∉ cl.map Prod.fst := by
  intro cl
  induction cl with
  | nil => simp [find]
  | cons x rest ih =>
    obtain ⟨k1, c1⟩ := x
    rw [find]
    by_cases hk : k1 = k
    · simp [hk]
    · simp only [hk, if_false, ih, List.map_cons, List.mem_cons]
      constructor
      · intro h h2
        rcases h2 with h2 | h2
        · exact hk h2.symm
        · exact h h2
      · intro h h2
        exact h (Or.inr h2)

theorem find_of_mem (k : Int) (c : Client) : ∀ cl : Registry,
    (cl.map Prod.fst).Nodup → (k, c) ∈ cl → find k cl = some c := by
  intro cl
  induction cl with
  | nil => intro _ h; simp at h
  | cons x rest ih =>
    obtain ⟨k1, c1⟩ := x
    intro hnd hm
    rw [List.map_cons, List.nodup_cons] at hnd
    rw [find]
    rcases List.mem_cons.1 hm with h | h
    · simp only [Prod.mk.injEq] at h
      simp [h.1, h.2]
    · have hk : k1 ≠ k := by
        intro e
        apply hnd.1
        rw [e]
        exact List.mem_map.2 ⟨(k, c), h, rfl⟩
      simp only [hk, if_false]
      exact ih hnd.2 h

theorem setLast_keys (k now : Int) : ∀ cl : Registry,
    (setLast k now cl).map Prod.fst = cl.map Prod.fst := by
  intro cl
  induction cl with
  | nil => rfl
  | cons x rest ih =>
    obtain ⟨k1, c1⟩ := x
    rw [setLast]
    split_ifs <;> simp [ih]

theorem setLast_mem (k now : Int) (kc : Int × Client) : ∀ cl : Registry,
    kc ∈ setLast k now cl → ∃ c, (kc.1, c) ∈ cl ∧ kc.2.clientfd = c.clientfd ∧
      kc.2.epollfd = c.epollfd := by
  intro cl
  induction cl with
  | nil => intro h; simp [setLast] at h
  | cons x rest ih =>
    obtain ⟨k1, c1⟩ := x
    rw [setLast]
    split_ifs with hk
    · intro h
      rcases List.mem_cons.1 h with h | h
      · exact ⟨c1, by simp [h], by simp [h], by simp [h]⟩
      · exact ⟨kc.2, List.mem_cons_of_mem _ h, rfl, rfl⟩
    · intro h
      rcases List.mem_cons.1 h with h | h
      · exact ⟨c1, by simp [h], by simp [h], by simp [h]⟩
      · obtain ⟨c, hc, h1, h2⟩ := ih h
        exact ⟨c, List.mem_cons_of_mem _ hc, h1, h2⟩

theorem find_setLast (k now : Int) : ∀ cl : Registry,
    find k (setLast k now cl) = (find k cl).map (fun c => { c with last := now }) := by
  intro cl
  induction cl with
  | nil => rfl
  | cons x rest ih =>
    obtain ⟨k1, c1⟩ := x
    rw [setLast]
    by_cases hk : k1 = k
    · simp [hk, find]
    · simp [hk, find, ih]

theorem setLast_others (k now : Int) : ∀ cl : Registry,
    (setLast k now cl).filter (fun kc => decide (kc.1 ≠ k)) =
      cl.filter (fun kc => decide (kc.1 ≠ k)) := by
  intro cl
  induction cl with
  | nil => rfl
  | cons x rest ih =>
    obtain ⟨k1, c1⟩ := x
    rw [setLast]
    by_cases hk : k1 = k
    · simp [hk]
    · simp only [hk, if_false, List.filter_cons, ih]

theorem find_survivors (k : Int) (len : Int) (wr : Int → Int) : ∀ cl : Registry,
    find k (survivors k len wr cl) = find k cl := by
  intro cl
  induction cl with
  | nil => rfl
  | cons x rest ih =>
    obtain ⟨k1, c1⟩ := x
    unfold survivors at ih ⊢
    rw [List.filter_cons]
    by_cases hk : k1 = k
    · simp [hk, find]
    · by_cases hw : writeFails (wr c1.clientfd) len = true
      · simp [hk, hw, find, ih]
      · simp [hk, hw, find, ih]

theorem survivors_sublist (k : Int) (len : Int) (wr : Int → Int) (cl : Registry) :
    List.Sublist (survivors k len wr cl) cl := by
  unfold survivors
  exact List.filter_sublist cl

theorem broadcastCalls_setLast (k : Int) (p : List Byte) (len : Int) (wr : Int → Int)
    (now : Int) : ∀ cl : Registry,
    broadcastCalls k p len wr (setLast k now cl) = broadcastCalls k p len wr cl := by
  intro cl
  induction cl with
  | nil => rfl
  | cons x rest ih =>
    obtain ⟨k1, c1⟩ := x
    rw [setLast]
    by_cases hk : k1 = k
    · simp [hk, broadcastCalls, peerCalls]
    · simp [hk, broadcastCalls, peerCalls, ih]

theorem broadcastCalls_writes (k : Int) (p : List Byte) (len : Int) (wr : Int → Int) :
    ∀ cl : Registry,
    (broadcastCalls k p len wr cl).filter Sys.isWrite =
      (cl.filter (fun kc => decide (kc.1 ≠ k))).map (fun kc => Sys.write kc.2.clientfd p) := by
  intro cl
  induction cl with
  | nil => rfl
  | cons x rest ih =>
    obtain ⟨k1, c1⟩ := x
    rw [broadcastCalls, List.filter_append, ih]
    unfold peerCalls
    by_cases hk : k1 = k
    · simp [hk]
    · by_cases hw : writeFails (wr c1.clientfd) len = true
      · simp [hk, hw, Sys.isWrite, destroy_no_write]
      · simp [hk, hw, Sys.isWrite]

theorem broadcastCalls_mem (k : Int) (p : List Byte) (len : Int) (wr : Int → Int) :
    ∀ cl : Registry, ∀ kc ∈ cl, kc.1 ≠ k →
      Sys.write kc.2.clientfd p ∈ broadcastCalls k p len wr cl := by
  intro cl kc hm hk
  have h : Sys.write kc.2.clientfd p ∈
      (cl.filter (fun kc => decide (kc.1 ≠ k))).map (fun kc => Sys.write kc.2.clientfd p) := by
    apply List.mem_map_of_mem
    simp [hm, hk]
  rw [← broadcastCalls_writes k p len wr cl] at h
  exact (List.mem_filter.1 h).1

theorem eraseKey_filter (k : Int) : ∀ cl : Registry, (cl.map Prod.fst).Nodup →
    (eraseKey k cl).1 = cl.filter (fun kc => decide (kc.1 ≠ k)) := by
  intro cl
  induction cl with
  | nil => intro _; rfl
  | cons x rest ih =>
    obtain ⟨k1, c1⟩ := x
    intro hnd
    rw [List.map_cons, List.nodup_cons] at hnd
    rw [eraseKey]
    by_cases hk : k1 = k
    · simp only [hk, if_true]
      rw [List.filter_cons]
      simp only [ne_eq, not_true_eq_false, decide_False, Bool.false_eq_true, if_false]
      symm
      rw [List.filter_eq_self]
      intro kc hkc
      simp only [ne_eq, decide_eq_true_eq]
      intro e
      apply hnd.1
      rw [hk, ← e]
      exact List.mem_map.2 ⟨kc, hkc, rfl⟩
    · simp [hk, ih hnd.2]

theorem eraseKey_calls (k : Int) (c : Client) : ∀ cl : Registry, find k cl = some c →
    (eraseKey k cl).2 = c.destroy := by
  intro cl
  induction cl with
  | nil => intro h; simp [find] at h
  | cons x rest ih =>
    obtain ⟨k1, c1⟩ := x
    intro h
    rw [find] at h
    rw [eraseKey]
    by_cases hk : k1 = k
    · simp only [hk, if_true, Option.some.injEq] at h
      simp [hk, h]
    · simp only [hk, if_false] at h
      simp [hk, ih h]

theorem eraseKey_length (k : Int) (c : Client) : ∀ cl : Registry, find k cl = some c →
    (eraseKey k cl).1.length + 1 = cl.length := by
  intro cl
  induction cl with
  | nil => intro h; simp [find] at h
  | cons x rest ih =>
    obtain ⟨k1, c1⟩ := x
    intro h
    rw [find] at h
    rw [eraseKey]
    by_cases hk : k1 = k
    · simp [hk]
    · simp only [hk, if_false] at h
      simp [hk, ih h]

theorem eraseKey_sublist (k : Int) : ∀ cl : Registry, List.Sublist (eraseKey k cl).1 cl := by
  intro cl
  induction cl with
  | nil => simp [eraseKey]
  | cons x rest ih =>
    obtain ⟨k1, c1⟩ := x
    rw [eraseKey]
    by_cases hk : k1 = k
    · simp [hk]
    · simp only [hk, if_false]
      exact List.Sublist.cons₂ _ ih

theorem find_filter_ne (k k2 : Int) : ∀ cl : Registry,
    find k2 (cl.filter (fun kc => decide (kc.1 ≠ k))) = if k2 = k then none else find k2 cl := by
  intro cl
  induction cl with
  | nil => simp [find]
  | cons x rest ih =>
    obtain ⟨k1, c1⟩ := x
    rw [List.filter_cons]
    by_cases hk : k1 = k
    · have e1 : decide ((k1, c1).1 ≠ k) = false := by simp [hk]
      rw [e1]
      simp only [Bool.false_eq_true, if_false]
      rw [ih, find]
      by_cases h2 : k2 = k
      · simp [h2]
      · have : ¬ k1 = k2 := fun e => h2 (e.symm.trans hk)
        simp [h2, this]
    · have e1 : decide ((k1, c1).1 ≠ k) = true := by simp [hk]
      rw [e1]
      simp only [if_true]
      rw [find, find, ih]
      by_cases h2 : k2 = k
      · have : ¬ k1 = k := hk
        simp [h2, this]
      · simp [h2]

/-! ## Invariants of the reachable states -/

theorem regOK_sublist (e : Int) (cl cl2 : Registry) (hsub : List.Sublist cl2 cl)
    (h : RegOK e cl) : RegOK e cl2 :=
  ⟨List.Nodup.sublist (List.Sublist.map Prod.fst hsub) h.1,
   fun kc hkc => h.2 kc (hsub.subset hkc)⟩

theorem regOK_setLast (e k now : Int) (cl : Registry) (h : RegOK e cl) :
    RegOK e (setLast k now cl) := by
  refine ⟨by rw [setLast_keys]; exact h.1, ?_⟩
  intro kc hkc
  obtain ⟨c, hc, h1, h2⟩ := setLast_mem k now kc cl hkc
  have := h.2 (kc.1, c) hc
  simp only at this
  exact ⟨by rw [h1]; exact this.1, by rw [h2]; exact this.2.1, this.2.2⟩

theorem process_server (s : Server) (key : Int) (c : Client) (env : Env) :
    (process s key c env).server = s ∨
    ∃ len : Int, (process s key c env).server =
      { s with clients := survivors key len env.wr (setLast key env.now s.clients) } := by
  unfold process
  cases env.rd with
  | none => exact Or.inl rfl
  | some buf =>
    simp only
    split_ifs
    · exact Or.inl rfl
    · exact Or.inl rfl
    · exact Or.inl rfl
    · exact Or.inl rfl
    · right
      refine ⟨(buf.length : Int), ?_⟩
      rw [broadcastLoop_full]

theorem process_inv (s : Server) (key : Int) (c : Client) (env : Env) (h : BrokerInv s) :
    BrokerInv (process s key c env).server := by
  rcases process_server s key c env with hp | ⟨len, hp⟩
  · rw [hp]; exact h
  · rw [hp]
    exact ⟨h.1, h.2.1, regOK_sublist _ _ _ (survivors_sublist _ _ _ _)
      (regOK_setLast _ _ _ _ h.2.2)⟩

theorem accept_inv (s : Server) (env : Env) (h : BrokerInv s) :
    BrokerInv (s.accept env).server := by
  unfold Server.accept
  simp only
  split_ifs with h0 h1
  · exact h
  · exact h
  · unfold emplace
    simp only [Client.moveCtor]
    cases hf : find env.acceptRes s.clients with
    | some c0 => exact h
    | none =>
      refine ⟨h.1, h.2.1, ?_, ?_⟩
      · simp only [List.map_cons, List.nodup_cons]
        exact ⟨(find_none_iff _ _).1 hf, h.2.2.1⟩
      · intro kc hkc
        rcases List.mem_cons.1 hkc with e | e
        · rw [e]
          exact ⟨rfl, rfl, h0⟩
        · exact h.2.2.2 kc e

theorem work_inv (s : Server) (env : Env) (h : BrokerInv s) :
    BrokerInv (s.work env).server := by
  unfold Server.work
  split_ifs with h0 h1 h2
  · exact h
  · exact h
  · exact accept_inv s env h
  · cases hf : find env.fd s.clients with
    | none => exact h
    | some c =>
      simp only
      have hp := process_inv s env.fd c env h
      split_ifs
      · exact ⟨hp.1, hp.2.1, regOK_sublist _ _ _ (eraseKey_sublist _ _) hp.2.2⟩
      · exact hp

theorem open_inv (oe : OpenEnv) (h : (Server.openSrv {} oe).1 = 0) :
    BrokerInv (Server.openSrv {} oe).2 := by
  unfold Server.openSrv at h ⊢
  simp only at h ⊢
  have hE : EINVAL ≠ 0 := by decide
  split_ifs at h ⊢
  all_goals first
    | exact absurd h hE
    | simp_all [BrokerInv, RegOK]

theorem reachable_inv (s : Server) (h : Reachable s) : BrokerInv s := by
  induction h with
  | opened oe h0 => exact open_inv oe h0
  | worked s env _ ih => exact work_inv s env ih

/-! ## Consequences used by several properties -/

theorem no_write_to_sender (e key : Int) (c : Client) (p : List Byte) (len : Int)
    (wr : Int → Int) (cl : Registry) (hok : RegOK e cl) (hc : find key cl = some c)
    (bytes : List Byte) : Sys.write c.clientfd bytes ∉ broadcastCalls key p len wr cl := by
  intro hmem
  have h1 : Sys.write c.clientfd bytes ∈
      (broadcastCalls key p len wr cl).filter Sys.isWrite :=
    List.mem_filter.2 ⟨hmem, rfl⟩
  rw [broadcastCalls_writes] at h1
  obtain ⟨kc, hkc, heq⟩ := List.mem_map.1 h1
  have hkc2 := List.mem_filter.1 hkc
  have hne : kc.1 ≠ key := by simpa using hkc2.2
  have hfd : kc.2.clientfd = c.clientfd := by
    injection heq
  have i1 := (hok.2 kc hkc2.1).1
  have i2 := (hok.2 (key, c) (find_mem key c cl hc)).1
  simp only at i2
  exact hne (by rw [← i1, hfd, i2])

theorem destroy_registered (s : Server) (key : Int) (c : Client) (h : BrokerInv s)
    (hc : find key s.clients = some c) :
    c.destroy = [Sys.epollDel s.epollfd key, Sys.close key] := by
  have i := h.2.2.2 (key, c) (find_mem key c s.clients hc)
  simp only at i
  unfold Client.destroy
  have e1 : c.epollfd ≠ 0 := by rw [i.2.1]; exact h.1
  have e2 : c.clientfd ≠ 0 := by rw [i.1]; exact i.2.2
  rw [if_pos e1, if_pos e2, i.1, i.2.1]
  rfl

theorem work_client (s : Server) (c : Client) (env : Env) (hw : 0 < env.wait)
    (hne : env.fd ≠ s.serverfd) (hc : find env.fd s.clients = some c) :
    s.work env =
      if (process s env.fd c env).action = Action.drop then
        ⟨0, { (process s env.fd c env).server with
                clients := (eraseKey env.fd (process s env.fd c env).server.clients).1 },
          (process s env.fd c env).trace ++
            (eraseKey env.fd (process s env.fd c env).server.clients).2⟩
      else ⟨0, (process s env.fd c env).server, (process s env.fd c env).trace⟩ := by
  unfold Server.work
  have e1 : ¬ env.wait < 0 := by omega
  have e2 : ¬ env.wait = 0 := by omega
  rw [if_neg e1, if_neg e2, if_neg hne, hc]

theorem work_drop (s : Server) (c : Client) (env : Env) (tr : List Sys) (h : BrokerInv s)
    (hw : 0 < env.wait) (hne : env.fd ≠ s.serverfd) (hc : find env.fd s.clients = some c)
    (hp : process s env.fd c env = ⟨Action.drop, s, tr⟩) :
    (s.work env).ret = 0 ∧
    (s.work env).server.clients = s.clients.filter (fun kc => decide (kc.1 ≠ env.fd)) ∧
    (s.work env).trace = tr ++ [Sys.epollDel s.epollfd env.fd, Sys.close env.fd] := by
  rw [work_client s c env hw hne hc, hp, if_pos rfl]
  refine ⟨rfl, eraseKey_filter _ _ h.2.2.1, ?_⟩
  show tr ++ (eraseKey env.fd s.clients).2 = _
  rw [eraseKey_calls env.fd c s.clients hc, destroy_registered s env.fd c h hc]

theorem work_keep (s : Server) (c : Client) (env : Env) (hw : 0 < env.wait)
    (hne : env.fd ≠ s.serverfd) (hc : find env.fd s.clients = some c)
    (hp : (process s env.fd c env).action = Action.keep) :
    s.work env = ⟨0, (process s env.fd c env).server, (process s env.fd c env).trace⟩ := by
  rw [work_client s c env hw hne hc, hp]
  simp

theorem work_accept (s : Server) (env : Env) (hw : 0 < env.wait) (hfd : env.fd = s.serverfd)
    (hacc : env.acceptRes ≠ 0) (hctl : env.ctlAdd = 0)
    (hfresh : find env.acceptRes s.clients = none) :
    s.work env =
      ⟨0, { s with clients := (env.acceptRes, ⟨env.acceptRes, s.epollfd, 0⟩) :: s.clients },
        [Sys.epollAdd s.epollfd env.acceptRes]⟩ := by
  unfold Server.work
  have e1 : ¬ env.wait < 0 := by omega
  have e2 : ¬ env.wait = 0 := by omega
  rw [if_neg e1, if_neg e2, if_pos hfd]
  unfold Server.accept
  simp only [hacc, if_false, hctl, ne_eq, not_true_eq_false]
  unfold emplace
  simp only [hfresh, Client.moveCtor, Client.destroy]
  simp

theorem srv3_reachable : Reachable srv3 :=
  Reachable.worked _ _ (Reachable.worked _ _ (Reachable.worked _ _
    (Reachable.opened oe0 (by decide))))

theorem hi_ok : ∀ b ∈ hi, b.val < 0x20 → b.val = 10 ∨ b.val = 13 := by
  intro b hb
  simp only [hi, List.mem_cons, List.mem_singleton, List.not_mem_nil, or_false] at hb
  rcases hb with h | h | h <;> subst h <;> decide

/-! ## The properties of the specification -/

/-- C1, broadcast delivery.  In a reachable state, when the read for a registered
sender gives a payload `P` of 1 to 180 bytes without a control byte other than
`\n` and `\r` (bytes from 0x80 included, whatever the signedness of `char`), at
least one second after the sender's `last`, `process` returns `keep`, its
writes are exactly one write of `P` on the descriptor of every other registry
entry, in iteration order, no write goes to the sender's descriptor, and the
sender's `last` becomes `now`. -/
theorem process_broadcast_delivery (s : Server) (key : Int) (c : Client) (env : Env)
    (P : List Byte) (hs : Reachable s) (hc : find key s.clients = some c)
    (hrd : env.rd = some P) (h1 : 1 ≤ P.length) (h2 : P.length ≤ 180)
    (hok : ∀ b ∈ P, b.val < 0x20 → b.val = 10 ∨ b.val = 13)
    (ht : second ≤ env.now - c.last) :
    (process s key c env).action = Action.keep ∧
    (process s key c env).trace.filter Sys.isWrite =
      (s.clients.filter (fun kc => decide (kc.1 ≠ key))).map
        (fun kc => Sys.write kc.2.clientfd P) ∧
    (∀ bytes, Sys.write c.clientfd bytes ∉ (process s key c env).trace) ∧
    find key (process s key c env).server.clients = some { c with last := env.now } := by
  have hok2 : ∀ b ∈ P, ¬ (b.val < 0x20 ∧ b.val ≠ 10 ∧ b.val ≠ 13) := by
    intro b hb hbad
    rcases hok b hb hbad.1 with h | h
    · exact hbad.2.1 h
    · exact hbad.2.2 h
  rw [process_broadcast s key c env P hrd h1 h2 hok2 ht]
  simp only
  rw [broadcastCalls_setLast]
  refine ⟨trivial, broadcastCalls_writes _ _ _ _ _, ?_, ?_⟩
  · intro bytes
    exact no_write_to_sender s.epollfd key c P _ env.wr s.clients (reachable_inv s hs).2.2 hc
      bytes
  · rw [find_survivors, find_setLast, hc]
    rfl

/-- Instance of C1: Connections 5, 6, 7; Connection 6 sends `hi\n` two seconds
after the epoch while the write to 5 fails. -/
theorem process_broadcast_delivery_witness :
    Reachable srv3 ∧ find 6 srv3.clients = some ⟨6, 4, 0⟩ ∧
    (process srv3 6 ⟨6, 4, 0⟩ (envRead 6 (some hi) 2000000000 5)).action = Action.keep ∧
    (process srv3 6 ⟨6, 4, 0⟩ (envRead 6 (some hi) 2000000000 5)).trace.filter Sys.isWrite =
      (srv3.clients.filter (fun kc => decide (kc.1 ≠ 6))).map
        (fun kc => Sys.write kc.2.clientfd hi) ∧
    (∀ bytes, Sys.write (6 : Int) bytes ∉
      (process srv3 6 ⟨6, 4, 0⟩ (envRead 6 (some hi) 2000000000 5)).trace) ∧
    find 6 (process srv3 6 ⟨6, 4, 0⟩ (envRead 6 (some hi) 2000000000 5)).server.clients =
      some ⟨6, 4, 2000000000⟩ :=
  ⟨srv3_reachable, by decide,
    process_broadcast_delivery srv3 6 ⟨6, 4, 0⟩ (envRead 6 (some hi) 2000000000 5) hi
      srv3_reachable (by decide) rfl (by decide) (by decide) hi_ok (by decide)⟩

/-- C2, failure isolation during broadcast.  For every registry and every accepted
message of a registered sender (payload of 1 to 180 bytes, no forbidden byte,
at least one second after the sender's `last`), the registry after `process`
is the registry the loop started from (the prior one with the sender's `last`
set to `now`) minus exactly the entries other than the sender whose write
failed; the calls issued are those of a scan that visits every entry once in
iteration order, destroying a failing peer right after its write; every other
entry gets its write, also after a failing one; the sender stays. -/
theorem broadcast_failure_isolation (s : Server) (key : Int) (c : Client) (env : Env)
    (P : List Byte) (hc : find key s.clients = some c)
    (hrd : env.rd = some P) (h1 : 1 ≤ P.length) (h2 : P.length ≤ 180)
    (hok : ∀ b ∈ P, b.val < 0x20 → b.val = 10 ∨ b.val = 13)
    (ht : second ≤ env.now - c.last) :
    (process s key c env).server.clients =
      (setLast key env.now s.clients).filter
        (fun kc => decide (kc.1 = key) || !writeFails (env.wr kc.2.clientfd) P.length) ∧
    (process s key c env).trace = broadcastCalls key P P.length env.wr s.clients ∧
    (∀ kc ∈ s.clients, kc.1 ≠ key →
      Sys.write kc.2.clientfd P ∈ (process s key c env).trace) ∧
    find key (process s key c env).server.clients = some { c with last := env.now } := by
  have hok2 : ∀ b ∈ P, ¬ (b.val < 0x20 ∧ b.val ≠ 10 ∧ b.val ≠ 13) := by
    intro b hb hbad
    rcases hok b hb hbad.1 with h | h
    · exact hbad.2.1 h
    · exact hbad.2.2 h
  rw [process_broadcast s key c env P hrd h1 h2 hok2 ht]
  simp only
  rw [broadcastCalls_setLast]
  refine ⟨rfl, rfl, ?_, ?_⟩
  · intro kc hkc hne
    exact broadcastCalls_mem key P _ env.wr s.clients kc hkc hne
  · rw [find_survivors, find_setLast, hc]
    rfl

/-- Instance of C2: Connections 7, 6, 5 in iteration order; Connection 6 sends
`hi\n` while the write to 7, the first entry, fails. -/
theorem broadcast_failure_isolation_witness :
    find 6 srv3.clients = some ⟨6, 4, 0⟩ ∧
    (process srv3 6 ⟨6, 4, 0⟩ (envRead 6 (some hi) 2000000000 7)).server.clients =
      (setLast 6 2000000000 srv3.clients).filter
        (fun kc => decide (kc.1 = 6) ||
          !writeFails ((envRead 6 (some hi) 2000000000 7).wr kc.2.clientfd) hi.length) ∧
    (process srv3 6 ⟨6, 4, 0⟩ (envRead 6 (some hi) 2000000000 7)).trace =
      broadcastCalls 6 hi hi.length (envRead 6 (some hi) 2000000000 7).wr srv3.clients ∧
    (∀ kc ∈ srv3.clients, kc.1 ≠ 6 → Sys.write kc.2.clientfd hi ∈
      (process srv3 6 ⟨6, 4, 0⟩ (envRead 6 (some hi) 2000000000 7)).trace) ∧
    find 6 (process srv3 6 ⟨6, 4, 0⟩ (envRead 6 (some hi) 2000000000 7)).server.clients =
      some ⟨6, 4, 2000000000⟩ :=
  ⟨by decide,
    broadcast_failure_isolation srv3 6 ⟨6, 4, 0⟩ (envRead 6 (some hi) 2000000000 7) hi
      (by decide) rfl (by decide) (by decide) hi_ok (by decide)⟩

/-- C3, overflow.  In a reachable state, when the read for a registered sender
fills the 181-byte buffer, `process` writes to the sender the 17 bytes of
`message overflow\n` (no NUL) and nothing else, leaves the state untouched and
returns `drop`; `work` then returns 0 with the sender, and only the sender,
removed from the registry.  A read of at most 180 bytes never ends in `drop`
after a notice. -/
theorem overflow_drops_sender (s : Server) (c : Client) (env : Env) (P : List Byte)
    (hs : Reachable s) (hw : 0 < env.wait) (hne : env.fd ≠ s.serverfd)
    (hc : find env.fd s.clients = some c) (hrd : env.rd = some P)
    (hlen : P.length = 181) :
    (process s env.fd c env).action = Action.drop ∧
    (process s env.fd c env).trace = [Sys.write c.clientfd (lit "message overflow\n")] ∧
    (lit "message overflow\n").length = 17 ∧ (0 : Byte) ∉ lit "message overflow\n" ∧
    (process s env.fd c env).server = s ∧
    (s.work env).ret = 0 ∧
    (s.work env).server.clients = s.clients.filter (fun kc => decide (kc.1 ≠ env.fd)) ∧
    find env.fd (s.work env).server.clients = none ∧
    (∀ k, k ≠ env.fd → find k (s.work env).server.clients = find k s.clients) ∧
    (s.work env).trace.filter Sys.isWrite =
      [Sys.write c.clientfd (lit "message overflow\n")] ∧
    (∀ (env2 : Env) (Q : List Byte), env2.rd = some Q → Q.length ≤ 180 →
      (process s env.fd c env2).action = Action.drop →
        (process s env.fd c env2).trace = []) := by
  have hp := process_overflow s env.fd c env P hrd hlen
  have hwk := work_drop s c env _ (reachable_inv s hs) hw hne hc hp
  refine ⟨by rw [hp], by rw [hp], by decide, by decide, by rw [hp], hwk.1, hwk.2.1, ?_, ?_,
    ?_, ?_⟩
  · rw [hwk.2.1, find_filter_ne]
    simp
  · intro k hk
    rw [hwk.2.1, find_filter_ne, if_neg hk]
  · rw [hwk.2.2]
    simp [Sys.isWrite]
  · intro env2 Q hrd2 hQ
    unfold process
    rw [hrd2]
    have e1 : ¬ ((Q.length : Int) = 181) := by omega
    simp only [e1, if_false]
    split_ifs <;> simp

/-- Instance of C3: Connection 6 sends 181 bytes `A`. -/
theorem overflow_drops_sender_witness :
    Reachable srv3 ∧ find 6 srv3.clients = some ⟨6, 4, 0⟩ ∧
    (List.replicate 181 (65 : Byte)).length = 181 ∧
    (srv3.work (envRead 6 (some (List.replicate 181 65)) 0 0)).ret = 0 ∧
    find 6 (srv3.work (envRead 6 (some (List.replicate 181 65)) 0 0)).server.clients = none ∧
    (srv3.work (envRead 6 (some (List.replicate 181 65)) 0 0)).trace.filter Sys.isWrite =
      [Sys.write 6 (lit "message overflow\n")] :=
  have h := overflow_drops_sender srv3 ⟨6, 4, 0⟩ (envRead 6 (some (List.replicate 181 65)) 0 0)
    (List.replicate 181 65) srv3_reachable (by decide) (by decide) (by decide) rfl
    (List.length_replicate _ _)
  ⟨srv3_reachable, by decide, List.length_replicate _ _, h.2.2.2.2.2.1, h.2.2.2.2.2.2.2.1,
    h.2.2.2.2.2.2.2.2.2.1⟩

/-- C4, forbidden symbols take precedence over flood.  When the read for a
registered sender gives 1 to 180 bytes with at least one byte below 0x20 other
than `\n` (0x0A) and `\r` (0x0D), then for every `last` of the sender and every
clock reading `process` issues the single call that writes
`forbidden symbols\n` to the sender, never `flood is detected\n`, leaves the
state (registry and `last`) unchanged and returns `keep`. -/
theorem forbidden_precedes_flood (s : Server) (key : Int) (c : Client) (env : Env)
    (P : List Byte) (hc : find key s.clients = some c)
    (hrd : env.rd = some P) (h1 : 1 ≤ P.length) (h2 : P.length ≤ 180)
    (hbad : ∃ b ∈ P, b.val < 0x20 ∧ b.val ≠ 10 ∧ b.val ≠ 13) :
    (process s key c env).trace = [Sys.write c.clientfd (lit "forbidden symbols\n")] ∧
    Sys.write c.clientfd (lit "flood is detected\n") ∉ (process s key c env).trace ∧
    (process s key c env).server = s ∧
    find key (process s key c env).server.clients = some c ∧
    (process s key c env).action = Action.keep := by
  rw [process_forbidden s key c env P hrd h1 h2 hbad]
  refine ⟨rfl, ?_, rfl, hc, rfl⟩
  simp only [List.mem_singleton, Sys.write.injEq, true_and]
  decide

/-- Instance of C4: Connection 6 sends `h`, 0x07, `\n` half a second after the
epoch, its `last`, so that the flood condition holds as well. -/
theorem forbidden_precedes_flood_witness :
    find 6 srv3.clients = some ⟨6, 4, 0⟩ ∧
    (∃ b ∈ bell, b.val < 0x20 ∧ b.val ≠ 10 ∧ b.val ≠ 13) ∧
    (envRead 6 (some bell) 500000000 0).now - (⟨6, 4, 0⟩ : Client).last < second ∧
    (process srv3 6 ⟨6, 4, 0⟩ (envRead 6 (some bell) 500000000 0)).trace =
      [Sys.write 6 (lit "forbidden symbols\n")] ∧
    (process srv3 6 ⟨6, 4, 0⟩ (envRead 6 (some bell) 500000000 0)).action = Action.keep :=
  have h := forbidden_precedes_flood srv3 6 ⟨6, 4, 0⟩ (envRead 6 (some bell) 500000000 0) bell
    (by decide) rfl (by decide) (by decide) (by decide)
  ⟨by decide, by decide, by decide, h.1, h.2.2.2.2⟩

/-- C5, flood control.  When the read for a registered sender whose `last` is `t`
gives a valid message (1 to 180 bytes, no forbidden byte) at a clock reading
`now` with `now - t` below one second, `process` issues the single call that
writes `flood is detected\n` to the sender, leaves the state unchanged (the
sender's `last` is still `t`, the registry is the same) and returns `keep`. -/
theorem flood_control (s : Server) (key : Int) (c : Client) (env : Env)
    (P : List Byte) (hc : find key s.clients = some c)
    (hrd : env.rd = some P) (h1 : 1 ≤ P.length) (h2 : P.length ≤ 180)
    (hok : ∀ b ∈ P, b.val < 0x20 → b.val = 10 ∨ b.val = 13)
    (ht : env.now - c.last < second) :
    (process s key c env).trace = [Sys.write c.clientfd (lit "flood is detected\n")] ∧
    (process s key c env).server = s ∧
    find key (process s key c env).server.clients = some c ∧
    (process s key c env).action = Action.keep := by
  have hok2 : ∀ b ∈ P, ¬ (b.val < 0x20 ∧ b.val ≠ 10 ∧ b.val ≠ 13) := by
    intro b hb hbad
    rcases hok b hb hbad.1 with h | h
    · exact hbad.2.1 h
    · exact hbad.2.2 h
  rw [process_flood s key c env P hrd h1 h2 hok2 ht]
  exact ⟨rfl, rfl, hc, rfl⟩

/-- Instance of C5: Connection 6, whose `last` is the epoch, sends `hi\n` half a
second after the epoch. -/
theorem flood_control_witness :
    find 6 srv3.clients = some ⟨6, 4, 0⟩ ∧
    (envRead 6 (some hi) 500000000 0).now - (⟨6, 4, 0⟩ : Client).last < second ∧
    (process srv3 6 ⟨6, 4, 0⟩ (envRead 6 (some hi) 500000000 0)).trace =
      [Sys.write 6 (lit "flood is detected\n")] ∧
    (process srv3 6 ⟨6, 4, 0⟩ (envRead 6 (some hi) 500000000 0)).action = Action.keep :=
  have h := flood_control srv3 6 ⟨6, 4, 0⟩ (envRead 6 (some hi) 500000000 0) hi
    (by decide) rfl (by decide) (by decide) hi_ok (by decide)
  ⟨by decide, by decide, h.1, h.2.2.2⟩

/-- C6, disconnect.  In a reachable state, when the ready descriptor is a client's
(a key of the registry, not the listening socket) and its read returns 0
bytes, `work` returns 0, the registry loses exactly that entry (one entry
fewer, every other key mapped as before), and the calls issued are exactly
`EPOLL_CTL_DEL` of that descriptor on the Broker's epoll descriptor followed
by its `close`: nothing is written. -/
theorem disconnect_removes_one (s : Server) (c : Client) (env : Env)
    (hs : Reachable s) (hw : 0 < env.wait) (hne : env.fd ≠ s.serverfd)
    (hc : find env.fd s.clients = some c) (hrd : env.rd = some []) :
    (s.work env).ret = 0 ∧
    (s.work env).server.clients = s.clients.filter (fun kc => decide (kc.1 ≠ env.fd)) ∧
    (s.work env).server.clients.length + 1 = s.clients.length ∧
    find env.fd (s.work env).server.clients = none ∧
    (∀ k, k ≠ env.fd → find k (s.work env).server.clients = find k s.clients) ∧
    (s.work env).trace = [Sys.epollDel s.epollfd env.fd, Sys.close env.fd] := by
  have hinv := reachable_inv s hs
  have hp := process_eof s env.fd c env hrd
  have hwk := work_drop s c env _ hinv hw hne hc hp
  refine ⟨hwk.1, hwk.2.1, ?_, ?_, ?_, ?_⟩
  · rw [hwk.2.1, ← eraseKey_filter _ _ hinv.2.2.1]
    exact eraseKey_length env.fd c s.clients hc
  · rw [hwk.2.1, find_filter_ne]
    simp
  · intro k hk
    rw [hwk.2.1, find_filter_ne, if_neg hk]
  · rw [hwk.2.2]
    rfl

/-- Instance of C6: Connection 6 of 5, 6, 7 closes. -/
theorem disconnect_removes_one_witness :
    Reachable srv3 ∧ find 6 srv3.clients = some ⟨6, 4, 0⟩ ∧
    (srv3.work (envRead 6 (some []) 0 0)).ret = 0 ∧
    (srv3.work (envRead 6 (some []) 0 0)).server.clients =
      srv3.clients.filter (fun kc => decide (kc.1 ≠ 6)) ∧
    (srv3.work (envRead 6 (some []) 0 0)).trace = [Sys.epollDel 4 6, Sys.close 6] :=
  have h := disconnect_removes_one srv3 ⟨6, 4, 0⟩ (envRead 6 (some []) 0 0) srv3_reachable
    (by decide) (by decide) (by decide) rfl
  ⟨srv3_reachable, by decide, h.1, h.2.1, h.2.2.2.2.2⟩

/-- C7 fails as stated.  With Connections 5, 6, 7 registered, the listening socket
ready, `accept` returning -1 and the registration of -1 refused, `work`
returns `EINVAL`, which is not 0, and `main` leaves its loop with the next
event unserved.  (Were the registration of -1 to succeed, the registry would
change instead.) -/
theorem accept_failure_counterexample :
    (srv3.work envAcceptFail).ret = EINVAL ∧ (srv3.work envAcceptFail).ret ≠ 0 ∧
    mainLoop srv3 [envAcceptFail, envAccept 8] = some EINVAL ∧
    (srv3.work { envAcceptFail with ctlAdd := 0 }).server.clients ≠ srv3.clients := by
  decide

/-- C7 as amended.  When `work` services the listening socket, `accept` returns -1
and the registration of that descriptor is refused, the Broker state is
unchanged (no registered Connection is affected, nothing is written), and
`work` returns the non-zero code `EINVAL`, on which `main` leaves its loop. -/
theorem accept_failure_fatal (s : Server) (env : Env) (rest : List Env)
    (hw : 0 < env.wait) (hfd : env.fd = s.serverfd) (hacc : env.acceptRes = -1)
    (hctl : env.ctlAdd ≠ 0) :
    (s.work env).server = s ∧
    (s.work env).trace.filter Sys.isWrite = [] ∧
    (s.work env).ret = EINVAL ∧ EINVAL ≠ 0 ∧
    mainLoop s (env :: rest) = some EINVAL := by
  have e1 : ¬ env.wait < 0 := by omega
  have e2 : ¬ env.wait = 0 := by omega
  have hwork : s.work env =
      ⟨EINVAL, s, [Sys.epollAdd s.epollfd (-1), Sys.close (-1)]⟩ := by
    unfold Server.work
    rw [if_neg e1, if_neg e2, if_pos hfd]
    unfold Server.accept
    simp only [hacc]
    rw [if_neg (by decide), if_pos hctl]
    rfl
  have hE : EINVAL ≠ 0 := by decide
  refine ⟨by rw [hwork], by rw [hwork]; rfl, by rw [hwork], hE, ?_⟩
  rw [mainLoop, hwork]
  simp only [if_pos hE]

/-- Instance of C7 as amended: the state with Connections 5, 6, 7. -/
theorem accept_failure_fatal_witness :
    (0 : Int) < envAcceptFail.wait ∧ envAcceptFail.fd = srv3.serverfd ∧
    envAcceptFail.acceptRes = -1 ∧ envAcceptFail.ctlAdd ≠ 0 ∧
    (srv3.work envAcceptFail).server = srv3 ∧
    (srv3.work envAcceptFail).ret = EINVAL ∧
    mainLoop srv3 (envAcceptFail :: [envAccept 8]) = some EINVAL :=
  have h := accept_failure_fatal srv3 envAcceptFail [envAccept 8] (by decide) (by decide)
    (by decide) (by decide)
  ⟨by decide, by decide, by decide, by decide, h.1, h.2.2.1, h.2.2.2.2⟩

/-- C8, release exactly once under ownership transfer.  For a Client `c` with
non-zero `clientfd = f` and `epollfd = e`, move-construction gives the new
object the members `(f, e, last)` and leaves `c` with the default members
`(0, 0, {})`; destroying the moved-from `c` issues no call, destroying the new
object issues `EPOLL_CTL_DEL` of `f` on `e` and then `close` of `f`, so that
over the pair each is issued exactly once. -/
theorem move_releases_once (f e last : Int) (hf : f ≠ 0) (he : e ≠ 0) :
    (Client.moveCtor ⟨f, e, last⟩).1 = ⟨f, e, last⟩ ∧
    (Client.moveCtor ⟨f, e, last⟩).2 = ⟨0, 0, 0⟩ ∧
    (Client.moveCtor ⟨f, e, last⟩).2.destroy = [] ∧
    (Client.moveCtor ⟨f, e, last⟩).1.destroy = [Sys.epollDel e f, Sys.close f] ∧
    ((Client.moveCtor ⟨f, e, last⟩).2.destroy ++
      (Client.moveCtor ⟨f, e, last⟩).1.destroy).count (Sys.epollDel e f) = 1 ∧
    ((Client.moveCtor ⟨f, e, last⟩).2.destroy ++
      (Client.moveCtor ⟨f, e, last⟩).1.destroy).count (Sys.close f) = 1 := by
  have h1 : (Client.moveCtor ⟨f, e, last⟩).1 = ⟨f, e, last⟩ := rfl
  have h2 : (Client.moveCtor ⟨f, e, last⟩).2 = ⟨0, 0, 0⟩ := rfl
  have h3 : (Client.moveCtor ⟨f, e, last⟩).2.destroy = [] := by
    rw [h2]; rfl
  have h4 : (Client.moveCtor ⟨f, e, last⟩).1.destroy = [Sys.epollDel e f, Sys.close f] := by
    rw [h1]
    unfold Client.destroy
    simp only
    rw [if_pos he, if_pos hf]
    rfl
  refine ⟨h1, h2, h3, h4, ?_, ?_⟩
  · rw [h3, h4]
    simp [List.count_cons]
  · rw [h3, h4]
    simp [List.count_cons]

/-- Instance of C8: descriptor 5 registered on epoll descriptor 4. -/
theorem move_releases_once_witness :
    (5 : Int) ≠ 0 ∧ (4 : Int) ≠ 0 ∧
    (Client.moveCtor ⟨5, 4, 7⟩).1 = ⟨5, 4, 7⟩ ∧
    (Client.moveCtor ⟨5, 4, 7⟩).2 = ⟨0, 0, 0⟩ ∧
    (Client.moveCtor ⟨5, 4, 7⟩).2.destroy = [] ∧
    (Client.moveCtor ⟨5, 4, 7⟩).1.destroy = [Sys.epollDel 4 5, Sys.close 5] :=
  have h := move_releases_once 5 4 7 (by decide) (by decide)
  ⟨by decide, by decide, h.1, h.2.1, h.2.2.1, h.2.2.2.1⟩

/-- C9, registry invariant.  In every state reachable from a successful `open` by
calls of `work`, whatever the operating system answers, every registry entry
`(k, c)` has `c.clientfd = k`, `c.epollfd` equal to the Broker's `epollfd`, and
`k` non-zero; and a successful accept of a descriptor not yet registered
inserts the Connection under the accepted descriptor, with the members the
moved-from local had. -/
theorem registry_invariant (s : Server) (hs : Reachable s) :
    (∀ kc ∈ s.clients, kc.2.clientfd = kc.1 ∧ kc.2.epollfd = s.epollfd ∧ kc.1 ≠ 0) ∧
    (∀ env : Env, 0 < env.wait → env.fd = s.serverfd → env.acceptRes ≠ 0 →
      env.ctlAdd = 0 → find env.acceptRes s.clients = none →
      (s.work env).server.clients =
        (env.acceptRes, ⟨env.acceptRes, s.epollfd, 0⟩) :: s.clients) := by
  refine ⟨(reachable_inv s hs).2.2.2, ?_⟩
  intro env hw hfd hacc hctl hfresh
  rw [work_accept s env hw hfd hacc hctl hfresh]

/-- Instance of C9: the state reached by accepting 5, 6 and 7. -/
theorem registry_invariant_witness :
    Reachable srv3 ∧
    (∀ kc ∈ srv3.clients, kc.2.clientfd = kc.1 ∧ kc.2.epollfd = srv3.epollfd ∧ kc.1 ≠ 0) ∧
    srv3.clients = [(7, ⟨7, 4, 0⟩), (6, ⟨6, 4, 0⟩), (5, ⟨5, 4, 0⟩)] :=
  ⟨srv3_reachable, (registry_invariant srv3 srv3_reachable).1, by decide⟩

/-- C10 fails as stated.  Connection 7 has just been accepted and has had no
message accepted; its first message `hi\n`, valid, read half a second after the
clock's epoch, is answered with `flood is detected\n`, is not broadcast, and
`last` is not set. -/
theorem first_message_counterexample :
    find 7 srv3.clients = some ⟨7, 4, 0⟩ ∧
    (srv3.work (envRead 7 (some hi) 500000000 0)).trace =
      [Sys.write 7 (lit "flood is detected\n")] ∧
    find 7 (srv3.work (envRead 7 (some hi) 500000000 0)).server.clients =
      some ⟨7, 4, 0⟩ := by
  decide

/-- C10 as amended.  A Connection that has just been accepted carries
`last = {}`, the clock's epoch.  For every clock reading `now` at least one
second after the epoch, its first valid message (1 to 180 bytes, no forbidden
byte) is not rejected as flood: `work` returns 0, the writes issued are one
write of the message to every Connection registered before it, none goes to
the sender, and the sender's `last` becomes `now`. -/
theorem first_message_after_epoch (s : Server) (envA envM : Env) (P : List Byte)
    (hs : Reachable s) (hwA : 0 < envA.wait) (hfdA : envA.fd = s.serverfd)
    (hacc : envA.acceptRes ≠ 0) (hctl : envA.ctlAdd = 0)
    (hfresh : find envA.acceptRes s.clients = none) (hne : envA.acceptRes ≠ s.serverfd)
    (hwM : 0 < envM.wait) (hfdM : envM.fd = envA.acceptRes)
    (hrd : envM.rd = some P) (h1 : 1 ≤ P.length) (h2 : P.length ≤ 180)
    (hok : ∀ b ∈ P, b.val < 0x20 → b.val = 10 ∨ b.val = 13)
    (hnow : second ≤ envM.now) :
    find envA.acceptRes (s.work envA).server.clients =
      some ⟨envA.acceptRes, s.epollfd, 0⟩ ∧
    ((s.work envA).server.work envM).ret = 0 ∧
    ((s.work envA).server.work envM).trace.filter Sys.isWrite =
      s.clients.map (fun kc => Sys.write kc.2.clientfd P) ∧
    (∀ bytes, Sys.write envA.acceptRes bytes ∉ ((s.work envA).server.work envM).trace) ∧
    find envA.acceptRes ((s.work envA).server.work envM).server.clients =
      some ⟨envA.acceptRes, s.epollfd, envM.now⟩ := by
  have hok2 : ∀ b ∈ P, ¬ (b.val < 0x20 ∧ b.val ≠ 10 ∧ b.val ≠ 13) := by
    intro b hb hbad
    rcases hok b hb hbad.1 with h | h
    · exact hbad.2.1 h
    · exact hbad.2.2 h
  have hr1 : Reachable (s.work envA).server := Reachable.worked s envA hs
  have hinv1 := reachable_inv _ hr1
  have hA := work_accept s envA hwA hfdA hacc hctl hfresh
  have hcl : (s.work envA).server.clients =
      (envA.acceptRes, ⟨envA.acceptRes, s.epollfd, 0⟩) :: s.clients := by rw [hA]
  have hsfd : (s.work envA).server.serverfd = s.serverfd := by rw [hA]
  have hfind : find envA.acceptRes (s.work envA).server.clients =
      some ⟨envA.acceptRes, s.epollfd, 0⟩ := by
    rw [hcl]
    simp [find]
  generalize (s.work envA).server = s1 at hinv1 hcl hsfd hfind ⊢
  have hne1 : envM.fd ≠ s1.serverfd := by rw [hfdM, hsfd]; exact hne
  have hfindM : find envM.fd s1.clients = some ⟨envA.acceptRes, s.epollfd, 0⟩ := by
    rw [hfdM]; exact hfind
  have ht : second ≤ envM.now - (⟨envA.acceptRes, s.epollfd, 0⟩ : Client).last := by
    simpa using hnow
  have hp := process_broadcast s1 envM.fd ⟨envA.acceptRes, s.epollfd, 0⟩ envM P hrd h1 h2
    hok2 ht
  have hk := work_keep s1 ⟨envA.acceptRes, s.epollfd, 0⟩ envM hwM hne1 hfindM (by rw [hp])
  rw [hk, hp]
  simp only
  rw [broadcastCalls_setLast]
  refine ⟨hfind, trivial, ?_, ?_, ?_⟩
  · rw [broadcastCalls_writes, hcl, hfdM]
    rw [List.filter_cons]
    simp only [ne_eq, not_true_eq_false, decide_False, Bool.false_eq_true, if_false]
    congr 1
    rw [List.filter_eq_self]
    intro kc hkc
    have hnot := (find_none_iff _ _).1 hfresh
    simp only [decide_not, Bool.not_eq_true', decide_eq_false_iff_not]
    intro e
    apply hnot
    rw [← e]
    exact List.mem_map.2 ⟨kc, hkc, rfl⟩
  · intro bytes
    have := no_write_to_sender s1.epollfd envM.fd ⟨envA.acceptRes, s.epollfd, 0⟩ P P.length
      envM.wr s1.clients hinv1.2.2 hfindM bytes
    exact this
  · rw [← hfdM, find_survivors, find_setLast, hfindM, hfdM]
    rfl

/-- Instance of C10 as amended: with 5 and 6 registered, 7 is accepted and sends
`hi\n` two seconds after the epoch. -/
theorem first_message_after_epoch_witness :
    find 7 ((((srv0.work (envAccept 5)).server.work (envAccept 6)).server.work
      (envAccept 7)).server.work (envRead 7 (some hi) 2000000000 0)).server.clients =
      some ⟨7, 4, 2000000000⟩ :=
  (first_message_after_epoch ((srv0.work (envAccept 5)).server.work (envAccept 6)).server
    (envAccept 7) (envRead 7 (some hi) 2000000000 0) hi
    (Reachable.worked _ _ (Reachable.worked _ _ (Reachable.opened oe0 (by decide))))
    (by decide) (by decide) (by decide) (by decide) (by decide) (by decide) (by decide)
    (by decide) rfl (by decide) (by decide) hi_ok (by decide)).2.2.2.2

end Wunderchat
